import Mathlib

/-!
Shallow embedding of the `sublive` subdomain liveness scanner
(`sublive.go`): the prober/worker, the dedup registry and recursion
expander (the collector goroutine), the lifecycle queue-closure
semantics, the wordlist selection, the classifier and the report
formatting.  Strings are modelled through their character lists
(`String.data`); Go `int` is modelled as `Int`; fallible operations
return `Option`.
-/

namespace Sublive

/-- Model of Go `strings.Split(s, ".")` restricted to the single-character
separator used by the program: split a character list at every `'.'`.
`consHead` prepends a character to the first group. -/
def consHead (c : Char) : List (List Char) → List (List Char)
  | [] => [[c]]
  | g :: gs => (c :: g) :: gs

/-- Character-list splitter on `'.'`; `splitDotChars [] = [[]]`, matching
Go `strings.Split("", ".") = [""]`. -/
def splitDotChars : List Char → List (List Char)
  | [] => [[]]
  | c :: cs =>
    if c = '.' then [] :: splitDotChars cs
    else consHead c (splitDotChars cs)

/-- `strings.Split(s, ".")` on strings. -/
def splitDot (s : String) : List String := (splitDotChars s.data).map String.mk

/-- Go byte-wise string comparison `a <= b` (lexicographic), on the
character lists; used by `sort.Strings`. -/
def charListLe : List Char → List Char → Bool
  | [], _ => true
  | _ :: _, [] => false
  | a :: as, b :: bs => if a = b then charListLe as bs else decide (a < b)

/-- Lexicographic `a <= b` on strings (Go string comparison). -/
def strLe (a b : String) : Bool := charListLe a.data b.data

/-- `type Result struct { Subdomain string; Status int; IP string }`
(`sublive.go` lines 30-34).  `IP = ""` denotes an absent address. -/
structure Result where
  Subdomain : String
  Status : Int
  IP : String
  deriving DecidableEq

/-- Network oracle abstracting the I/O performed by `worker`
(`sublive.go` lines 47-71): `lookupHost` is `net.LookupHost` (empty list
models resolution failure), `httpResp`/`httpsResp` give the status code
of the GET on each scheme, `none` modelling an error (no response,
timeout or transport failure). -/
structure Net where
  lookupHost : String → List String
  httpResp : String → Option Int
  httpsResp : String → Option Int

/-- The network operations a probe may attempt, in order. -/
inductive Attempt where
  | dns
  | httpGet
  | httpsGet
  deriving DecidableEq

/-- One probe of candidate `sub`, from the body of `worker`
(`sublive.go` lines 47-78): resolve (best effort, first address or empty),
one HTTP GET, and an HTTPS GET only when HTTP produced no response;
`status` stays `0` when neither scheme answers.  Also returns the trace
of attempts actually made. -/
def probe (net : Net) (sub : String) : List Attempt × Result :=
  let ips := net.lookupHost sub
  let ip := ips.headD ""
  match net.httpResp sub with
  | some code => ([Attempt.dns, Attempt.httpGet], ⟨sub, code, ip⟩)
  | none =>
    match net.httpsResp sub with
    | some code => ([Attempt.dns, Attempt.httpGet, Attempt.httpsGet], ⟨sub, code, ip⟩)
    | none => ([Attempt.dns, Attempt.httpGet, Attempt.httpsGet], ⟨sub, 0, ip⟩)

/-- The `Result` published for one candidate. -/
def probeResult (net : Net) (sub : String) : Result := (probe net sub).2

/-- The worker loop (`sublive.go` lines 36-81) over the sequence of
candidates it consumes from `jobs`: each consumed candidate is probed and
exactly one `Result` is sent to `results`.  (Cancellation via `ctx.Done()`
is observed between jobs, so it only truncates the consumed sequence.) -/
def workerRun (net : Net) : List String → List Result
  | [] => []
  | j :: js => probeResult net j :: workerRun net js

/-- `found` map insert (`sublive.go` lines 235-239): insert `(key, r)`
only when `key` is not yet present ("first writer wins"). -/
def insertIfAbsent (found : List (String × Result)) (key : String) (r : Result) :
    List (String × Result) :=
  if (found.lookup key).isSome then found else found ++ [(key, r)]

/-- The registry built by the collector goroutine over a result stream:
fold `insertIfAbsent` left to right (the collector is the single writer,
serialised by `mu`). -/
def collect (found : List (String × Result)) : List Result → List (String × Result)
  | [] => found
  | r :: rs => collect (insertIfAbsent found r.Subdomain r) rs

/-- Outcome of a Go channel send. -/
inductive SendOutcome where
  | sent (queue : List String)
  | panicked
  deriving DecidableEq

/-- Go channel-send semantics for the buffered `jobs` channel: a send on
a closed channel causes a run-time panic; otherwise the value is
appended. -/
def chanSend (closed : Bool) (queue : List String) (c : String) : SendOutcome :=
  if closed then SendOutcome.panicked else SendOutcome.sent (queue ++ [c])

/-- One guarded enqueue from the collector (`sublive.go` lines 250-258):
`if _, ok := found[c]; !ok { jobs <- c }`.  `none` models the panic that
a send on the closed `jobs` channel raises. -/
def sendIfAbsent (closed : Bool) (found : List (String × Result))
    (queue : List String) (c : String) : Option (List String) :=
  if (found.lookup c).isNone then
    match chanSend closed queue c with
    | SendOutcome.sent q2 => some q2
    | SendOutcome.panicked => none
  else some queue

/-- The purely syntactic derivation rule of the recursion expander
(`sublive.go` lines 242-248): when deep mode is on, the result's status is
non-zero and its subdomain has at least three labels, derive
`L-stage.domain`, `L-dev.domain`, `api.L.domain` from the leftmost
label `L`. -/
def derive (domain : String) (deep : Bool) (r : Result) : List String :=
  if deep = true ∧ r.Status ≠ 0 then
    if 3 ≤ (splitDot r.Subdomain).length then
      [(splitDot r.Subdomain).headD "" ++ "-stage." ++ domain,
       (splitDot r.Subdomain).headD "" ++ "-dev." ++ domain,
       "api." ++ (splitDot r.Subdomain).headD "" ++ "." ++ domain]
    else []
  else []

/-- Leftmost label of a result's subdomain (`parts[0]`). -/
def leftLabel (r : Result) : String := (splitDot r.Subdomain).headD ""

/-- One iteration of the collector goroutine (`sublive.go` lines 233-263)
processing result `r`: insert into `found` if absent; then, in deep mode,
for a non-zero status and at least three labels, enqueue each of the
three derived candidates that is absent from the (updated) registry.
`closed` is the state of the `jobs` channel; `none` models the process
crash when a send hits a closed channel. -/
def collectorStep (domain : String) (deep : Bool) (closed : Bool)
    (found : List (String × Result)) (queue : List String) (r : Result) :
    Option (List (String × Result) × List String) :=
  let found2 := insertIfAbsent found r.Subdomain r
  if deep = true ∧ r.Status ≠ 0 then
    let parts := splitDot r.Subdomain
    if 3 ≤ parts.length then
      let sub := parts.headD ""
      let c1 := sub ++ "-stage." ++ domain
      let c2 := sub ++ "-dev." ++ domain
      let c3 := "api." ++ sub ++ "." ++ domain
      (sendIfAbsent closed found2 queue c1).bind fun q1 =>
        (sendIfAbsent closed found2 q1 c2).bind fun q2 =>
          (sendIfAbsent closed found2 q2 c3).map fun q3 => (found2, q3)
    else some (found2, queue)
  else some (found2, queue)

/-- `defaultWords` (`sublive.go` lines 25-28). -/
def defaultWords : List String :=
  ["www", "mail", "ftp", "api", "dev", "test", "stage", "admin", "portal", "beta",
   "shop", "cdn", "m", "mobile", "secure", "webmail"]

/-- Built-in wordlist per speed tier (`sublive.go` lines 169-178); tiers
other than 1 and 2 (including the `default` case) use `defaultWords`. -/
def tierWords (t : Int) : List String :=
  if t = 1 then
    defaultWords ++
      ["app", "gateway", "auth", "accounts", "login", "payments", "images", "static",
       "docs", "status", "internal", "ops", "graphql", "socket", "router", "db"]
  else if t = 2 then
    defaultWords ++ ["app", "auth", "login", "api", "static", "cdn"]
  else
    defaultWords

/-- `uniqStrings` (`sublive.go` lines 120-133): drop empty strings and
keep the first occurrence of each string (the seen-set `m` always holds
exactly the elements of `out`). -/
def uniqStrings (l : List String) : List String :=
  l.foldl (fun out s => if s = "" ∨ s ∈ out then out else out ++ [s]) []

/-- Wordlist selection (`sublive.go` lines 155-181): an explicit `-w`
file path wins (an unreadable file, `fileWords = none`, is a fatal
startup error, modelled as `none`); otherwise non-empty piped stdin
lines; otherwise the tier defaults; the chosen list then goes through
`uniqStrings`. -/
def selectWords (wordlistPath : String) (fileWords : Option (List String))
    (stdinWords : Option (List String)) (t : Int) : Option (List String) :=
  if wordlistPath ≠ "" then
    match fileWords with
    | none => none
    | some ws => some (uniqStrings ws)
  else
    match stdinWords with
    | some piped =>
      if piped.length > 0 then some (uniqStrings piped)
      else some (uniqStrings (tierWords t))
    | none => some (uniqStrings (tierWords t))

/-- The five report buckets of `counts` (`sublive.go` line 287). -/
inductive Bucket where
  | live
  | notFound
  | redirect
  | other
  | unreachable
  deriving DecidableEq

/-- The classification cascade (`sublive.go` lines 288-300), one bucket
per status. -/
def classify (s : Int) : Bucket :=
  if s = 0 then Bucket.unreachable
  else if s = 404 then Bucket.notFound
  else if s = 301 ∨ s = 302 then Bucket.redirect
  else if 200 ≤ s ∧ s < 400 then Bucket.live
  else Bucket.other

/-- The per-bucket counters (`counts` map, keys `live`, `404`, `301`,
`other`, `unreachable`). -/
structure Counts where
  live : Nat
  notFound : Nat
  redirect : Nat
  other : Nat
  unreachable : Nat
  deriving DecidableEq

/-- One iteration of the counting loop (`sublive.go` lines 288-300). -/
def countStep (c : Counts) (r : Result) : Counts :=
  if r.Status = 0 then { c with unreachable := c.unreachable + 1 }
  else if r.Status = 404 then { c with notFound := c.notFound + 1 }
  else if r.Status = 301 ∨ r.Status = 302 then { c with redirect := c.redirect + 1 }
  else if 200 ≤ r.Status ∧ r.Status < 400 then { c with live := c.live + 1 }
  else { c with other := c.other + 1 }

/-- Counts over the drained registry values. -/
def countsOf (subs : List Result) : Counts := subs.foldl countStep ⟨0, 0, 0, 0, 0⟩

/-- `fmt.Sprintf("%s %d", r.Subdomain, r.Status)` (`sublive.go` line 305). -/
def lineOf (r : Result) : String := r.Subdomain ++ " " ++ toString r.Status

/-- Insertion into a sorted list under `strLe`. -/
def insertSorted (s : String) : List String → List String
  | [] => [s]
  | t :: ts => if strLe s t then s :: t :: ts else t :: insertSorted s ts

/-- `sort.Strings` modelled as insertion sort under Go string
comparison. -/
def sortStrings (l : List String) : List String := l.foldr insertSorted []

/-- The `-x` live filter (`sublive.go` line 312): status in `[200, 400)`. -/
def isLive (r : Result) : Bool := decide (200 ≤ r.Status) && decide (r.Status < 400)

/-- Output-line preparation (`sublive.go` lines 302-318): `lines` is the
sorted list of all formatted entries; with the live-only filter on,
`outLines` is instead rebuilt from the unsorted registry enumeration
`subs`, keeping only live entries. -/
def reportLines (subs : List Result) (sortLive : Bool) : List String :=
  let lines := sortStrings (subs.map lineOf)
  if sortLive then (subs.filter isLive).map lineOf else lines

/-! Lemmas about the dot splitter. -/

lemma splitDotChars_ne_nil (cs : List Char) : splitDotChars cs ≠ [] := by
  cases cs with
  | nil => simp [splitDotChars]
  | cons c cs =>
    by_cases h : c = '.'
    · simp [splitDotChars, h]
    · simp only [splitDotChars, if_neg h]
      cases splitDotChars cs <;> simp [consHead]

lemma length_consHead (c : Char) (l : List (List Char)) (h : l ≠ []) :
    (consHead c l).length = l.length := by
  cases l with
  | nil => exact absurd rfl h
  | cons g gs => simp [consHead]

lemma splitDotChars_cons_dot (cs : List Char) :
    splitDotChars ('.' :: cs) = [] :: splitDotChars cs := by
  simp [splitDotChars]

lemma splitDotChars_cons_ne (c : Char) (cs : List Char) (h : ¬ c = '.') :
    splitDotChars (c :: cs) = consHead c (splitDotChars cs) := by
  simp [splitDotChars, h]

lemma length_splitDotChars_append_dot (as bs : List Char) :
    (splitDotChars (as ++ '.' :: bs)).length =
      (splitDotChars as).length + (splitDotChars bs).length := by
  induction as with
  | nil =>
    simp only [List.nil_append, splitDotChars_cons_dot, List.length_cons]
    simp [splitDotChars]
    omega
  | cons c as ih =>
    by_cases h : c = '.'
    · subst h
      simp only [List.cons_append, splitDotChars_cons_dot, List.length_cons]
      omega
    · simp only [List.cons_append, splitDotChars_cons_ne c _ h,
        length_consHead c _ (splitDotChars_ne_nil _), ih]

lemma splitDotChars_api (rest : List Char) :
    splitDotChars ('a' :: 'p' :: 'i' :: '.' :: rest) = ['a', 'p', 'i'] :: splitDotChars rest := by
  rw [splitDotChars_cons_ne 'a' _ (by decide), splitDotChars_cons_ne 'p' _ (by decide),
    splitDotChars_cons_ne 'i' _ (by decide), splitDotChars_cons_dot]
  rfl

lemma splitDot_api (s : String) :
    splitDot ("api." ++ s) = "api" :: splitDot s := by
  have hdata : ("api." ++ s).data = 'a' :: 'p' :: 'i' :: '.' :: s.data := by
    rw [String.data_append]
    rfl
  simp only [splitDot, hdata, splitDotChars_api, List.map_cons]

/-! Lemmas about the prober. -/

lemma probeResult_subdomain (net : Net) (sub : String) :
    (probeResult net sub).Subdomain = sub := by
  unfold probeResult probe
  cases net.httpResp sub with
  | some code => rfl
  | none => cases net.httpsResp sub with
    | some code => rfl
    | none => rfl

/-! Lemmas about the registry. -/

lemma lookup_append (l1 l2 : List (String × Result)) (k : String) :
    (l1 ++ l2).lookup k = ((l1.lookup k).or (l2.lookup k)) := by
  induction l1 with
  | nil => simp [List.lookup]
  | cons p l1 ih =>
    cases p with
    | mk a v =>
      by_cases h : k == a
      · simp [List.lookup, h]
      · simp [List.lookup, h, ih]

lemma lookup_eq_none_iff (l : List (String × Result)) (k : String) :
    l.lookup k = none ↔ k ∉ l.map Prod.fst := by
  induction l with
  | nil => simp [List.lookup]
  | cons p l ih =>
    cases p with
    | mk a v =>
      by_cases h : k = a
      · subst h
        simp [List.lookup]
      · have hb : (k == a) = false := beq_false_of_ne h
        simp [List.lookup, hb, ih, h]

lemma lookup_insertIfAbsent_present (found : List (String × Result)) (k : String) (r : Result)
    (h : (found.lookup k).isSome) : insertIfAbsent found k r = found := by
  simp [insertIfAbsent, h]

lemma lookup_collect (rs : List Result) (found : List (String × Result)) (k : String) :
    (collect found rs).lookup k =
      ((found.lookup k).or (rs.find? (fun r => r.Subdomain == k))) := by
  induction rs generalizing found with
  | nil => simp [collect]
  | cons r rs ih =>
    rw [collect, ih]
    by_cases hp : (found.lookup r.Subdomain).isSome
    · rw [lookup_insertIfAbsent_present _ _ _ hp]
      by_cases hk : r.Subdomain = k
      · subst hk
        obtain ⟨v, hv⟩ := Option.isSome_iff_exists.mp hp
        simp [hv, List.find?]
      · have hb : (r.Subdomain == k) = false := beq_false_of_ne hk
        simp [List.find?, hb]
    · have hnone : found.lookup r.Subdomain = none := Option.not_isSome_iff_eq_none.mp hp
      rw [insertIfAbsent, if_neg hp, lookup_append]
      by_cases hk : r.Subdomain = k
      · subst hk
        simp [hnone, List.lookup, List.find?]
      · have hb : (r.Subdomain == k) = false := beq_false_of_ne hk
        have hb2 : (k == r.Subdomain) = false := beq_false_of_ne (Ne.symm hk)
        simp [List.lookup, List.find?, hb, hb2]

lemma nodup_keys_collect (rs : List Result) (found : List (String × Result))
    (h : (found.map Prod.fst).Nodup) : ((collect found rs).map Prod.fst).Nodup := by
  induction rs generalizing found with
  | nil => exact h
  | cons r rs ih =>
    rw [collect]
    apply ih
    by_cases hp : (found.lookup r.Subdomain).isSome
    · rwa [lookup_insertIfAbsent_present _ _ _ hp]
    · have hnone : found.lookup r.Subdomain = none := Option.not_isSome_iff_eq_none.mp hp
      have hnotmem : r.Subdomain ∉ found.map Prod.fst := (lookup_eq_none_iff _ _).mp hnone
      rw [insertIfAbsent, if_neg hp]
      simp only [List.map_append, List.map_cons, List.map_nil]
      rw [List.nodup_append]
      refine ⟨h, List.nodup_singleton _, ?_⟩
      intro x hx hx2
      simp only [List.mem_singleton] at hx2
      exact hnotmem (hx2 ▸ hx)

/-! Lemmas about the string order and sorting. -/

lemma charListLe_total : ∀ (as bs : List Char), charListLe as bs = true ∨ charListLe bs as = true := by
  intro as
  induction as with
  | nil => intro bs; left; rfl
  | cons a as ih =>
    intro bs
    cases bs with
    | nil => right; rfl
    | cons b bs =>
      by_cases hab : a = b
      · subst hab
        simp only [charListLe, if_pos rfl]
        exact ih bs
      · rcases lt_trichotomy a b with hlt | heq | hgt
        · left
          simp [charListLe, hab, hlt]
        · exact absurd heq hab
        · right
          simp [charListLe, Ne.symm hab, hgt]

lemma charListLe_trans : ∀ (as bs cs : List Char), charListLe as bs = true →
    charListLe bs cs = true → charListLe as cs = true := by
  intro as
  induction as with
  | nil => intro bs cs h1 h2; rfl
  | cons a as ih =>
    intro bs cs h1 h2
    cases bs with
    | nil => simp [charListLe] at h1
    | cons b bs =>
      cases cs with
      | nil => simp [charListLe] at h2
      | cons c cs =>
        by_cases hab : a = b
        · subst hab
          simp only [charListLe, if_pos rfl] at h1
          by_cases hac : a = c
          · subst hac
            simp only [charListLe, if_pos rfl] at h2 ⊢
            exact ih bs cs h1 h2
          · simp only [charListLe, if_neg hac] at h2 ⊢
            exact h2
        · simp only [charListLe, if_neg hab, decide_eq_true_eq] at h1
          by_cases hbc : b = c
          · subst hbc
            simp only [charListLe, if_neg hab, decide_eq_true_eq]
            exact h1
          · simp only [charListLe, if_neg hbc, decide_eq_true_eq] at h2
            have hac : a < c := lt_trans h1 h2
            simp only [charListLe, if_neg (ne_of_lt hac), decide_eq_true_eq]
            exact hac

lemma strLe_total (a b : String) : strLe a b = true ∨ strLe b a = true :=
  charListLe_total a.data b.data

lemma strLe_trans (a b c : String) (h1 : strLe a b = true) (h2 : strLe b c = true) :
    strLe a c = true :=
  charListLe_trans a.data b.data c.data h1 h2

lemma mem_insertSorted (s x : String) (l : List String) :
    x ∈ insertSorted s l ↔ x = s ∨ x ∈ l := by
  induction l with
  | nil => simp [insertSorted]
  | cons t ts ih =>
    by_cases hst : strLe s t = true
    · simp [insertSorted, hst]
    · simp only [insertSorted, if_neg hst, List.mem_cons, ih]
      tauto

lemma sorted_insertSorted (s : String) (l : List String)
    (h : l.Sorted (fun a b => strLe a b = true)) :
    (insertSorted s l).Sorted (fun a b => strLe a b = true) := by
  induction l with
  | nil => simp [insertSorted]
  | cons t ts ih =>
    rw [List.sorted_cons] at h
    obtain ⟨ht, hts⟩ := h
    by_cases hst : strLe s t = true
    · rw [insertSorted, if_pos hst, List.sorted_cons]
      refine ⟨?_, ?_⟩
      · intro b hb
        rcases List.mem_cons.mp hb with hb | hb
        · exact hb ▸ hst
        · exact strLe_trans s t b hst (ht b hb)
      · rw [List.sorted_cons]
        exact ⟨ht, hts⟩
    · rw [insertSorted, if_neg hst, List.sorted_cons]
      refine ⟨?_, ih hts⟩
      intro b hb
      rcases (mem_insertSorted s b ts).mp hb with hb | hb
      · rw [hb]
        rcases strLe_total s t with h1 | h1
        · exact absurd h1 hst
        · exact h1
      · exact ht b hb

lemma sorted_sortStrings (l : List String) :
    (sortStrings l).Sorted (fun a b => strLe a b = true) := by
  induction l with
  | nil => simp [sortStrings]
  | cons s l ih => exact sorted_insertSorted s _ ih

/-! Lemmas about wordlist deduplication. -/

lemma uniq_foldl_invariant (l : List String) : ∀ (acc : List String), acc.Nodup → "" ∉ acc →
    (l.foldl (fun out s => if s = "" ∨ s ∈ out then out else out ++ [s]) acc).Nodup ∧
      "" ∉ l.foldl (fun out s => if s = "" ∨ s ∈ out then out else out ++ [s]) acc := by
  induction l with
  | nil => intro acc h1 h2; exact ⟨h1, h2⟩
  | cons s l ih =>
    intro acc h1 h2
    rw [List.foldl_cons]
    by_cases hc : s = "" ∨ s ∈ acc
    · rw [if_pos hc]
      exact ih acc h1 h2
    · rw [if_neg hc]
      push_neg at hc
      apply ih
      · rw [List.nodup_append]
        refine ⟨h1, List.nodup_singleton s, ?_⟩
        intro x hx hx2
        simp only [List.mem_singleton] at hx2
        exact hc.2 (hx2 ▸ hx)
      · simp only [List.mem_append, List.mem_singleton]
        rintro (h | h)
        · exact h2 h
        · exact hc.1 h.symm

lemma mem_uniq_foldl (l : List String) : ∀ (acc : List String) (x : String),
    (x ∈ l.foldl (fun out s => if s = "" ∨ s ∈ out then out else out ++ [s]) acc) ↔
      (x ∈ acc ∨ (x ∈ l ∧ x ≠ "")) := by
  induction l with
  | nil => intro acc x; simp
  | cons s l ih =>
    intro acc x
    rw [List.foldl_cons]
    by_cases hc : s = "" ∨ s ∈ acc
    · rw [if_pos hc, ih]
      constructor
      · rintro (h | h)
        · left; exact h
        · right; exact ⟨List.mem_cons_of_mem s h.1, h.2⟩
      · rintro (h | ⟨hmem, hne⟩)
        · left; exact h
        · rcases List.mem_cons.mp hmem with hx | hx
          · subst hx
            rcases hc with hc | hc
            · exact absurd hc hne
            · left; exact hc
          · right; exact ⟨hx, hne⟩
    · rw [if_neg hc, ih]
      push_neg at hc
      simp only [List.mem_append, List.mem_singleton, List.mem_cons, List.not_mem_nil,
        or_false]
      constructor
      · rintro ((h | h) | h)
        · left; exact h
        · subst h
          right
          exact ⟨Or.inl rfl, hc.1⟩
        · right
          exact ⟨Or.inr h.1, h.2⟩
      · rintro (h | ⟨hx | hx, hne⟩)
        · left; left; exact h
        · subst hx
          left; right; rfl
        · right
          exact ⟨hx, hne⟩

lemma uniqStrings_nodup (l : List String) : (uniqStrings l).Nodup :=
  (uniq_foldl_invariant l [] List.nodup_nil (by simp)).1

lemma uniqStrings_no_empty (l : List String) : "" ∉ uniqStrings l :=
  (uniq_foldl_invariant l [] List.nodup_nil (by simp)).2

lemma mem_uniqStrings (l : List String) (x : String) :
    x ∈ uniqStrings l ↔ (x ∈ l ∧ x ≠ "") := by
  rw [uniqStrings, mem_uniq_foldl]
  simp

/-! Lemmas about the classifier and the counters. -/

lemma countStep_fields (c : Counts) (r : Result) :
    (countStep c r).live = c.live + (if classify r.Status = Bucket.live then 1 else 0) ∧
    (countStep c r).notFound = c.notFound + (if classify r.Status = Bucket.notFound then 1 else 0) ∧
    (countStep c r).redirect = c.redirect + (if classify r.Status = Bucket.redirect then 1 else 0) ∧
    (countStep c r).other = c.other + (if classify r.Status = Bucket.other then 1 else 0) ∧
    (countStep c r).unreachable =
      c.unreachable + (if classify r.Status = Bucket.unreachable then 1 else 0) := by
  unfold countStep classify
  split_ifs <;> simp_all

lemma counts_foldl (subs : List Result) : ∀ (c : Counts),
    (subs.foldl countStep c).live =
      c.live + (subs.filter (fun r => decide (classify r.Status = Bucket.live))).length ∧
    (subs.foldl countStep c).notFound =
      c.notFound + (subs.filter (fun r => decide (classify r.Status = Bucket.notFound))).length ∧
    (subs.foldl countStep c).redirect =
      c.redirect + (subs.filter (fun r => decide (classify r.Status = Bucket.redirect))).length ∧
    (subs.foldl countStep c).other =
      c.other + (subs.filter (fun r => decide (classify r.Status = Bucket.other))).length ∧
    (subs.foldl countStep c).unreachable =
      c.unreachable + (subs.filter (fun r => decide (classify r.Status = Bucket.unreachable))).length := by
  induction subs with
  | nil => intro c; simp
  | cons r rs ih =>
    intro c
    rw [List.foldl_cons]
    obtain ⟨h1, h2, h3, h4, h5⟩ := ih (countStep c r)
    obtain ⟨g1, g2, g3, g4, g5⟩ := countStep_fields c r
    refine ⟨?_, ?_, ?_, ?_, ?_⟩
    · rw [h1, g1]
      by_cases hb : classify r.Status = Bucket.live
      · simp [List.filter_cons, hb]
        omega
      · simp [List.filter_cons, hb]
    · rw [h2, g2]
      by_cases hb : classify r.Status = Bucket.notFound
      · simp [List.filter_cons, hb]
        omega
      · simp [List.filter_cons, hb]
    · rw [h3, g3]
      by_cases hb : classify r.Status = Bucket.redirect
      · simp [List.filter_cons, hb]
        omega
      · simp [List.filter_cons, hb]
    · rw [h4, g4]
      by_cases hb : classify r.Status = Bucket.other
      · simp [List.filter_cons, hb]
        omega
      · simp [List.filter_cons, hb]
    · rw [h5, g5]
      by_cases hb : classify r.Status = Bucket.unreachable
      · simp [List.filter_cons, hb]
        omega
      · simp [List.filter_cons, hb]

lemma sendIfAbsent_open (found : List (String × Result)) (q : List String) (c : String) :
    sendIfAbsent false found q c =
      some (q ++ if (found.lookup c).isNone then [c] else []) := by
  by_cases h : (found.lookup c).isNone
  · simp [sendIfAbsent, chanSend, h]
  · simp [sendIfAbsent, h]

lemma filter3 (p : String → Bool) (q : List String) (c1 c2 c3 : String) :
    ((q ++ if p c1 then [c1] else []) ++ if p c2 then [c2] else []) ++
        (if p c3 then [c3] else []) =
      q ++ [c1, c2, c3].filter p := by
  by_cases h1 : p c1 <;> by_cases h2 : p c2 <;> by_cases h3 : p c3 <;>
    simp [List.filter, h1, h2, h3]

/-! The claims. -/

/-- C1: at the failing input — deep mode, the 6-second timer has already
closed the `jobs` channel, and the collector processes a responsive result
for `www.example.com` — the enqueue of the first derived candidate is a
send on a closed channel, which panics (modelled as `none`) and crashes the
pipeline instead of silently dropping the candidate; with the queue still
open the identical step succeeds and enqueues all three candidates. -/
theorem queueClosedWritePanics :
    collectorStep "example.com" true true [] [] ⟨"www.example.com", 200, ""⟩ = none ∧
    chanSend true [] "www-stage.example.com" = SendOutcome.panicked ∧
    collectorStep "example.com" true false [] [] ⟨"www.example.com", 200, ""⟩ =
      some ([("www.example.com", ⟨"www.example.com", 200, ""⟩)],
        ["www-stage.example.com", "www-dev.example.com", "api.www.example.com"]) := by
  refine ⟨by decide, by decide, by decide⟩

/-- C2 counterexample: `www-stage.example.com` is itself a candidate
produced by the recursion expander (from the seed result for
`www.example.com`), yet when its own probe returns a non-zero status the
derivation rule fires on it again and derives three further candidates —
so derivation is not restricted to results coming from the original seed. -/
theorem derivedCandidateDerivesAgain :
    "www-stage.example.com" ∈ derive "example.com" true ⟨"www.example.com", 200, ""⟩ ∧
    derive "example.com" true ⟨"www-stage.example.com", 200, ""⟩ =
      ["www-stage-stage.example.com", "www-stage-dev.example.com",
        "api.www-stage.example.com"] := by
  refine ⟨by decide, by decide⟩

/-- C2 amended: the expander has no depth limit — the rule treats derived
candidates exactly like seed candidates, and every derived candidate of the
shape `api.L.domain` whose probe returns a non-zero status is expanded
again (into `api-stage.domain`, `api-dev.domain`, `api.api.domain`). -/
theorem recursionDepthNotOne (domain L ip : String) (st : Int) (h : st ≠ 0) :
    derive domain true ⟨"api." ++ (L ++ "." ++ domain), st, ip⟩ =
      ["api" ++ "-stage." ++ domain, "api" ++ "-dev." ++ domain,
        "api." ++ "api" ++ "." ++ domain] ∧
    derive domain true ⟨"api." ++ (L ++ "." ++ domain), st, ip⟩ ≠ [] := by
  have hxs : splitDot ("api." ++ (L ++ "." ++ domain)) =
      "api" :: splitDot (L ++ "." ++ domain) := splitDot_api _
  have hdata : (L ++ "." ++ domain).data = L.data ++ '.' :: domain.data := by
    rw [String.data_append, String.data_append]
    simp
  have hlen : 3 ≤ (splitDot ("api." ++ (L ++ "." ++ domain))).length := by
    rw [hxs]
    simp only [List.length_cons, splitDot, List.length_map, hdata,
      length_splitDotChars_append_dot]
    have l1 : 0 < (splitDotChars L.data).length :=
      List.length_pos.mpr (splitDotChars_ne_nil _)
    have l2 : 0 < (splitDotChars domain.data).length :=
      List.length_pos.mpr (splitDotChars_ne_nil _)
    omega
  have hmain : derive domain true ⟨"api." ++ (L ++ "." ++ domain), st, ip⟩ =
      ["api" ++ "-stage." ++ domain, "api" ++ "-dev." ++ domain,
        "api." ++ "api" ++ "." ++ domain] := by
    unfold derive
    rw [if_pos ⟨rfl, h⟩, if_pos hlen, hxs]
    rfl
  refine ⟨hmain, ?_⟩
  rw [hmain]
  simp

/-- Witness for `recursionDepthNotOne` at the derived candidate
`api.www.example.com`. -/
theorem recursionDepthNotOne_witness :
    derive "example.com" true ⟨"api." ++ ("www" ++ "." ++ "example.com"), 200, ""⟩ ≠ [] :=
  (recursionDepthNotOne "example.com" "www" "" 200 (by decide)).2

/-- C3: the registry deduplicates with first-writer-wins semantics — after
draining any result stream into the initially-empty registry, its keys are
nodup (so at most one entry per key, and exactly one for every key that
occurs in the stream), the stored value for a key is the first result of
the stream carrying it, and an insert attempt for an already-present key
leaves the registry unchanged. -/
theorem dedupFirstWriterWins (rs : List Result) (k : String)
    (m : List (String × Result)) (r : Result) :
    ((collect [] rs).map Prod.fst).Nodup ∧
    (collect [] rs).lookup k = rs.find? (fun x => x.Subdomain == k) ∧
    ((collect [] rs).map Prod.fst).count k ≤ 1 ∧
    ((∃ x ∈ rs, x.Subdomain = k) → ((collect [] rs).map Prod.fst).count k = 1) ∧
    ((m.lookup k).isSome → insertIfAbsent m k r = m) := by
  have hnodup : ((collect [] rs).map Prod.fst).Nodup :=
    nodup_keys_collect rs [] List.nodup_nil
  have hlook : (collect [] rs).lookup k = rs.find? (fun x => x.Subdomain == k) := by
    rw [lookup_collect]
    simp [List.lookup]
  have hle : ((collect [] rs).map Prod.fst).count k ≤ 1 :=
    List.nodup_iff_count_le_one.mp hnodup k
  refine ⟨hnodup, hlook, hle, ?_, fun h => lookup_insertIfAbsent_present m k r h⟩
  rintro ⟨x, hx, hxk⟩
  have hfind : (rs.find? (fun x => x.Subdomain == k)).isSome := by
    rw [List.find?_isSome]
    exact ⟨x, hx, by simp [hxk]⟩
  have hsome : ((collect [] rs).lookup k).isSome := by
    rw [hlook]
    exact hfind
  have hmem : k ∈ (collect [] rs).map Prod.fst := by
    by_contra hnot
    rw [← lookup_eq_none_iff] at hnot
    rw [hnot] at hsome
    exact Bool.noConfusion hsome
  have hpos : 0 < ((collect [] rs).map Prod.fst).count k := List.count_pos_iff.mpr hmem
  omega

/-- Witness for `dedupFirstWriterWins`: a duplicated key in the stream is
stored once with its first result, and a repeated insert is a no-op. -/
theorem dedupFirstWriterWins_witness :
    (collect [] [⟨"a.x", 200, ""⟩, ⟨"a.x", 0, ""⟩]).lookup "a.x" = some ⟨"a.x", 200, ""⟩ ∧
    (((collect [] [⟨"a.x", 200, ""⟩, ⟨"a.x", 0, ""⟩]).map Prod.fst).count "a.x" = 1) ∧
    insertIfAbsent [("a.x", ⟨"a.x", 200, ""⟩)] "a.x" ⟨"a.x", 0, ""⟩ =
      [("a.x", ⟨"a.x", 200, ""⟩)] := by
  have h := dedupFirstWriterWins [⟨"a.x", 200, ""⟩, ⟨"a.x", 0, ""⟩] "a.x"
    [("a.x", ⟨"a.x", 200, ""⟩)] ⟨"a.x", 0, ""⟩
  refine ⟨?_, ?_, ?_⟩
  · rw [h.2.1]
    decide
  · exact h.2.2.2.1 ⟨⟨"a.x", 200, ""⟩, by decide, rfl⟩
  · exact h.2.2.2.2 (by decide)

/-- C10: when the responding subdomain has fewer than three dot-separated
labels, the expander derives nothing and the collector enqueues nothing,
even in deep mode with a non-zero status. -/
theorem noDerivationFewLabels (domain : String) (deep closed : Bool)
    (found : List (String × Result)) (queue : List String) (r : Result)
    (h : (splitDot r.Subdomain).length < 3) :
    derive domain deep r = [] ∧
    collectorStep domain deep closed found queue r =
      some (insertIfAbsent found r.Subdomain r, queue) := by
  constructor
  · unfold derive
    split_ifs with h1 h2
    · omega
    · rfl
    · rfl
  · simp only [collectorStep]
    split_ifs with h1 h2
    · omega
    · rfl
    · rfl

/-- Witness for `noDerivationFewLabels` at a two-label responding host
(single-label root domain). -/
theorem noDerivationFewLabels_witness :
    (splitDot "www.example").length < 3 ∧
    derive "example" true ⟨"www.example", 200, ""⟩ = [] ∧
    collectorStep "example" true true [] [] ⟨"www.example", 200, ""⟩ =
      some ([("www.example", ⟨"www.example", 200, ""⟩)], []) := by
  refine ⟨by decide, ?_, ?_⟩
  · exact (noDerivationFewLabels "example" true true [] [] ⟨"www.example", 200, ""⟩
      (by decide)).1
  · rw [(noDerivationFewLabels "example" true true [] [] ⟨"www.example", 200, ""⟩
      (by decide)).2]
    decide

/-- C4 counterexample: a run whose registry enumerates the live entry
`b.example.com` before `a.example.com`; with the live-only filter enabled
the emitted lines are exactly the enumeration order, which is not
lexicographically sorted. -/
theorem filteredReportUnsorted :
    reportLines [⟨"b.example.com", 200, ""⟩, ⟨"a.example.com", 200, ""⟩] true =
      ["b.example.com 200", "a.example.com 200"] ∧
    ¬ (reportLines [⟨"b.example.com", 200, ""⟩, ⟨"a.example.com", 200, ""⟩] true).Sorted
        (fun a b => strLe a b = true) := by
  refine ⟨by decide, by decide⟩

/-- C4 amended: the emitted report lines are sorted lexicographically when
the live-only filter is disabled; when the filter is enabled, the emitted
lines are the live entries (status in [200,400)) in registry enumeration
order, without re-sorting. -/
theorem reportSortedness (subs : List Result) :
    (reportLines subs false).Sorted (fun a b => strLe a b = true) ∧
    reportLines subs true = (subs.filter isLive).map lineOf := by
  exact ⟨sorted_sortStrings (subs.map lineOf), rfl⟩

/-- C5: the classifier assigns every status to exactly one bucket — 0 to
unreachable, 404 to not-found, 301 and 302 to redirect, any other status in
[200,400) to live, and every remaining status to other — and the reported
per-bucket counters equal the number of registry entries in each bucket. -/
theorem classifierCorrect :
    (∀ s : Int, classify s = Bucket.unreachable ↔ s = 0) ∧
    (∀ s : Int, classify s = Bucket.notFound ↔ s = 404) ∧
    (∀ s : Int, classify s = Bucket.redirect ↔ (s = 301 ∨ s = 302)) ∧
    (∀ s : Int, classify s = Bucket.live ↔ (200 ≤ s ∧ s < 400 ∧ s ≠ 301 ∧ s ≠ 302)) ∧
    (∀ s : Int, classify s = Bucket.other ↔ (s ≠ 0 ∧ s ≠ 404 ∧ ¬(200 ≤ s ∧ s < 400))) ∧
    (∀ subs : List Result,
      (countsOf subs).live =
        (subs.filter (fun r => decide (classify r.Status = Bucket.live))).length ∧
      (countsOf subs).notFound =
        (subs.filter (fun r => decide (classify r.Status = Bucket.notFound))).length ∧
      (countsOf subs).redirect =
        (subs.filter (fun r => decide (classify r.Status = Bucket.redirect))).length ∧
      (countsOf subs).other =
        (subs.filter (fun r => decide (classify r.Status = Bucket.other))).length ∧
      (countsOf subs).unreachable =
        (subs.filter (fun r => decide (classify r.Status = Bucket.unreachable))).length) := by
  refine ⟨?_, ?_, ?_, ?_, ?_, ?_⟩
  · intro s
    unfold classify
    split_ifs <;> simp_all
  · intro s
    unfold classify
    split_ifs <;> simp_all
  · intro s
    unfold classify
    split_ifs <;> simp_all
  · intro s
    unfold classify
    split_ifs <;> simp_all
    omega
  · intro s
    unfold classify
    split_ifs <;> simp_all
    omega
  · intro subs
    have h := counts_foldl subs ⟨0, 0, 0, 0, 0⟩
    simpa [countsOf] using h

/-- C6: with recursion enabled, a consumed result with non-zero status and
at least three labels, leftmost label `L`, over configured root `domain`,
derives exactly `L-stage.domain`, `L-dev.domain`, `api.L.domain`; the
collector enqueues exactly those of the three whose key is absent from the
registry at the time of the check (the registry as just updated with the
result itself). -/
theorem recursionDerivation (domain : String) (found : List (String × Result))
    (queue : List String) (r : Result) (h0 : r.Status ≠ 0)
    (h3 : 3 ≤ (splitDot r.Subdomain).length) :
    derive domain true r =
      [leftLabel r ++ "-stage." ++ domain, leftLabel r ++ "-dev." ++ domain,
        "api." ++ leftLabel r ++ "." ++ domain] ∧
    collectorStep domain true false found queue r =
      some (insertIfAbsent found r.Subdomain r,
        queue ++ (derive domain true r).filter
          (fun c => ((insertIfAbsent found r.Subdomain r).lookup c).isNone)) := by
  have hderive : derive domain true r =
      [leftLabel r ++ "-stage." ++ domain, leftLabel r ++ "-dev." ++ domain,
        "api." ++ leftLabel r ++ "." ++ domain] := by
    unfold derive leftLabel
    rw [if_pos ⟨rfl, h0⟩, if_pos h3]
  refine ⟨hderive, ?_⟩
  rw [hderive]
  simp only [leftLabel, collectorStep, eq_self_iff_true, true_and]
  rw [if_pos h0, if_pos h3]
  simp only [sendIfAbsent_open, Option.some_bind]
  rw [show ∀ (x : List String),
      Option.map (fun q3 => (insertIfAbsent found r.Subdomain r, q3)) (some x) =
        some (insertIfAbsent found r.Subdomain r, x) from fun x => rfl]
  exact congrArg (fun l => some (insertIfAbsent found r.Subdomain r, l))
    (filter3 (fun c => (List.lookup c (insertIfAbsent found r.Subdomain r)).isNone)
      queue _ _ _)

/-- Witness for `recursionDerivation`: a live seed result for
`www.example.com` with `www-dev.example.com` already registered derives the
three candidates and enqueues the two absent ones. -/
theorem recursionDerivation_witness :
    derive "example.com" true ⟨"www.example.com", 200, ""⟩ =
      ["www-stage.example.com", "www-dev.example.com", "api.www.example.com"] ∧
    collectorStep "example.com" true false
      [("www-dev.example.com", ⟨"www-dev.example.com", 404, ""⟩)] []
      ⟨"www.example.com", 200, ""⟩ =
      some ([("www-dev.example.com", ⟨"www-dev.example.com", 404, ""⟩),
              ("www.example.com", ⟨"www.example.com", 200, ""⟩)],
        ["www-stage.example.com", "api.www.example.com"]) := by
  have h1 := recursionDerivation "example.com" [] [] ⟨"www.example.com", 200, ""⟩
    (by decide) (by decide)
  have h2 := recursionDerivation "example.com"
    [("www-dev.example.com", ⟨"www-dev.example.com", 404, ""⟩)] []
    ⟨"www.example.com", 200, ""⟩ (by decide) (by decide)
  refine ⟨?_, ?_⟩
  · rw [h1.1]
    decide
  · rw [h2.2, h2.1]
    decide

/-- C7: the prober resolves DNS first and a resolution failure is non-fatal
(the address is recorded absent and probing proceeds); it makes one HTTP
attempt, and one HTTPS attempt only when HTTP yielded no response;
assuming responses carry non-zero status codes, the returned status is 0
iff neither scheme yielded a response; no attempt beyond the two scheme
attempts is made. -/
theorem proberContract (net : Net) (sub : String)
    (hh : ∀ c, net.httpResp sub = some c → c ≠ 0)
    (hs : ∀ c, net.httpsResp sub = some c → c ≠ 0) :
    ((probeResult net sub).Status = 0 ↔
      (net.httpResp sub = none ∧ net.httpsResp sub = none)) ∧
    ((probe net sub).1 =
      if (net.httpResp sub).isSome then [Attempt.dns, Attempt.httpGet]
      else [Attempt.dns, Attempt.httpGet, Attempt.httpsGet]) ∧
    (net.lookupHost sub = [] → (probeResult net sub).IP = "") := by
  cases hhttp : net.httpResp sub with
  | some c =>
    have hc : c ≠ 0 := hh c hhttp
    refine ⟨?_, ?_, ?_⟩
    · simp [probeResult, probe, hhttp, hc]
    · simp [probe, hhttp]
    · intro hl
      simp [probeResult, probe, hhttp, hl]
  | none =>
    cases hhtps : net.httpsResp sub with
    | some c =>
      have hc : c ≠ 0 := hs c hhtps
      refine ⟨?_, ?_, ?_⟩
      · simp [probeResult, probe, hhttp, hhtps, hc]
      · simp [probe, hhttp, hhtps]
      · intro hl
        simp [probeResult, probe, hhttp, hhtps, hl]
    | none =>
      refine ⟨?_, ?_, ?_⟩
      · simp [probeResult, probe, hhttp, hhtps]
      · simp [probe, hhttp, hhtps]
      · intro hl
        simp [probeResult, probe, hhttp, hhtps, hl]

/-- A network oracle where nothing resolves and nothing responds. -/
def netNoResponse : Net := ⟨fun _ => [], fun _ => none, fun _ => none⟩

/-- Witness for `proberContract`: against a dead network the probe records
status 0, an absent address, and attempted DNS, HTTP and HTTPS once each. -/
theorem proberContract_witness :
    (probeResult netNoResponse "mail.example.com").Status = 0 ∧
    (probeResult netNoResponse "mail.example.com").IP = "" ∧
    (probe netNoResponse "mail.example.com").1 =
      [Attempt.dns, Attempt.httpGet, Attempt.httpsGet] := by
  have h := proberContract netNoResponse "mail.example.com"
    (fun c hc => Option.noConfusion hc) (fun c hc => Option.noConfusion hc)
  refine ⟨h.1.mpr ⟨rfl, rfl⟩, h.2.2 rfl, ?_⟩
  rw [h.2.1]
  rfl

/-- C8: each consumed candidate yields exactly one published result, whose
subdomain field is the candidate itself: the worker's output corresponds
pointwise to its consumed input, in particular with equal length. -/
theorem workerOneResultPerCandidate (net : Net) (js : List String) :
    (workerRun net js).length = js.length ∧
    List.Forall₂ (fun (j : String) (r : Result) => r.Subdomain = j) js (workerRun net js) := by
  induction js with
  | nil => exact ⟨rfl, List.Forall₂.nil⟩
  | cons j js ih =>
    refine ⟨?_, List.Forall₂.cons (probeResult_subdomain net j) ih.2⟩
    simp only [workerRun, List.length_cons, ih.1]

/-- C9: wordlist selection follows the strict priority "explicit file over
piped stdin over tier defaults", an unreadable explicit file is fatal, and
the selected fragment sequence is deduplicated with empty fragments removed
(first occurrences kept). -/
theorem wordlistSelection (wpath : String) (fw : Option (List String))
    (stdinWords : Option (List String)) (t : Int) (ws piped l : List String) (x : String) :
    (wpath ≠ "" → selectWords wpath none stdinWords t = none) ∧
    (wpath ≠ "" → selectWords wpath (some ws) stdinWords t = some (uniqStrings ws)) ∧
    (piped ≠ [] → selectWords "" fw (some piped) t = some (uniqStrings piped)) ∧
    selectWords "" fw (some []) t = some (uniqStrings (tierWords t)) ∧
    selectWords "" fw none t = some (uniqStrings (tierWords t)) ∧
    (uniqStrings l).Nodup ∧ "" ∉ uniqStrings l ∧
    (x ∈ uniqStrings l ↔ (x ∈ l ∧ x ≠ "")) := by
  refine ⟨?_, ?_, ?_, ?_, ?_, uniqStrings_nodup l, uniqStrings_no_empty l,
    mem_uniqStrings l x⟩
  · intro h
    simp [selectWords, h]
  · intro h
    simp [selectWords, h]
  · intro h
    have hl : 0 < piped.length := List.length_pos.mpr h
    simp [selectWords, hl]
  · simp [selectWords]
  · simp [selectWords]

/-- Witness for `wordlistSelection` at concrete inputs: an unreadable
explicit file is fatal even with piped data available, a readable file wins
and is deduplicated, and piped data beats the defaults. -/
theorem wordlistSelection_witness :
    selectWords "words.txt" none (some ["app"]) 2 = none ∧
    selectWords "words.txt" (some ["www", "www", ""]) (some ["app"]) 2 = some ["www"] ∧
    selectWords "" none (some ["api", ""]) 2 = some ["api"] := by
  have h := wordlistSelection "words.txt" none (some ["app"]) 2 ["www", "www", ""]
    ["api", ""] [] ""
  refine ⟨h.1 (by decide), ?_, ?_⟩
  · rw [h.2.1 (by decide)]
    decide
  · rw [h.2.2.1 (by decide)]
    decide

end Sublive
